import Mathlib

set_option maxHeartbeats 1000000

namespace BankProc

/-!
Shallow embedding of `bank_statement_processor.py` (class `BankStatementProcessor`).
Strings are Lean `String`s, monetary floats are modelled as rationals `ℚ`,
fallible steps return `Option`.
-/

/-- Python `str.lower()`, restricted to the ASCII case mapping that the
bank identifiers and statement texts use. -/
def pyLower (s : String) : String := String.mk (s.toList.map Char.toLower)

/-- Python substring containment `needle in hay`, on character lists. -/
def containsSub (n : List Char) : List Char → Bool
  | [] => n.isEmpty
  | c :: t => n.isPrefixOf (c :: t) || containsSub n t

/-- Python `needle in hay` on strings. -/
def pyIn (needle hay : String) : Bool := containsSub needle.toList hay.toList

theorem isPrefixOf_iff_ex {n h : List Char} :
    n.isPrefixOf h = true ↔ ∃ t, h = n ++ t := by
  induction n generalizing h with
  | nil => simp [List.isPrefixOf]
  | cons a n ih =>
    cases h with
    | nil => simp [List.isPrefixOf]
    | cons b t =>
      simp only [List.isPrefixOf, Bool.and_eq_true, beq_iff_eq, ih]
      constructor
      · rintro ⟨rfl, u, rfl⟩; exact ⟨u, rfl⟩
      · rintro ⟨u, hu⟩
        injection hu with h1 h2
        exact ⟨h1.symm, u, h2⟩

theorem containsSub_iff_ex {n h : List Char} :
    containsSub n h = true ↔ ∃ u v, h = u ++ n ++ v := by
  induction h with
  | nil =>
    simp only [containsSub, List.isEmpty_iff]
    constructor
    · rintro rfl; exact ⟨[], [], rfl⟩
    · rintro ⟨u, v, huv⟩
      rcases List.append_eq_nil.mp ((List.append_eq_nil).mp huv.symm).1 with ⟨_, h2⟩
      exact h2
  | cons c t ih =>
    simp only [containsSub, Bool.or_eq_true, isPrefixOf_iff_ex, ih]
    constructor
    · rintro (⟨u, hu⟩ | ⟨u, v, rfl⟩)
      · exact ⟨[], u, by simpa using hu⟩
      · exact ⟨c :: u, v, by simp⟩
    · rintro ⟨u, v, huv⟩
      cases u with
      | nil => exact Or.inl ⟨v, by simpa using huv⟩
      | cons x u =>
        injection huv with h1 h2
        exact Or.inr ⟨u, v, h2⟩

/-- Registered banks with their identifying substrings, in the fixed
registration order of the `banks` dict in `identify_bank`. -/
def banks : List (String × List String) :=
  [("chase", ["chase", "@chase.com"]),
   ("bank of america", ["bank of america", "bankofamerica", "@bofa.com"]),
   ("wells fargo", ["wells fargo", "wellsfargo", "@wellsfargo.com"]),
   ("citi", ["citi", "citibank", "@citi.com"]),
   ("capital one", ["capital one", "capitalone", "@capitalone.com"])]

/-- One bank entry matches iff one of its identifiers occurs in the
(lower-cased) subject or sender. -/
def bankMatches (subject sender : String) (p : String × List String) : Bool :=
  p.2.any fun i => pyIn i subject || pyIn i sender

/-- The `for bank, identifiers in banks.items()` loop of `identify_bank`,
including the trailing `'statement' in subject` fallback. -/
def identifyLoop (subject sender : String) : List (String × List String) → Option String
  | [] => if pyIn "statement" subject then some "unknown bank" else none
  | b :: bs => if bankMatches subject sender b then some b.1 else identifyLoop subject sender bs

/-- `identify_bank(subject, sender)`: lower-cases both inputs, scans the bank
registry in order, falls back to the sentinel `"unknown bank"` when the
subject mentions `statement`, else `None`. -/
def identify_bank (subject sender : String) : Option String :=
  identifyLoop (pyLower subject) (pyLower sender) banks

/-- Declarative restatement of the `identify_bank` contract: first matching
bank in registration order, then the sentinel, then `none`. -/
def identifySpec (subject sender : String) : Option String :=
  match banks.find? (bankMatches (pyLower subject) (pyLower sender)) with
  | some p => some p.1
  | none => if pyIn "statement" (pyLower subject) then some "unknown bank" else none

theorem identifyLoop_eq_find (subject sender : String) (bs : List (String × List String)) :
    identifyLoop subject sender bs =
      match bs.find? (bankMatches subject sender) with
      | some p => some p.1
      | none => if pyIn "statement" subject then some "unknown bank" else none := by
  induction bs with
  | nil => rfl
  | cons b bs ih =>
    by_cases hb : bankMatches subject sender b
    · simp [identifyLoop, hb, List.find?]
    · simp only [Bool.not_eq_true] at hb
      simp [identifyLoop, hb, List.find?, ih]

theorem toList_pyLower (s : String) : (pyLower s).toList = s.toList.map Char.toLower := rfl

/-- C3: bank identification returns the first registered bank whose identifier
occurs in the lower-cased subject or sender; with no such bank it returns
the sentinel `"unknown bank"` whenever the subject mentions `statement`
(so it is never `none` in that case), and `none` otherwise. -/
theorem identify_bank_contract :
    (∀ subject sender, identify_bank subject sender = identifySpec subject sender) ∧
    (∀ subject sender, pyIn "statement" (pyLower subject) = true →
      (identify_bank subject sender).isSome = true) := by
  constructor
  · intro subject sender
    exact identifyLoop_eq_find _ _ banks
  · intro subject sender h
    unfold identify_bank
    rw [identifyLoop_eq_find]
    cases hf : banks.find? (bankMatches (pyLower subject) (pyLower sender)) with
    | none => simp [h]
    | some p => simp

/-- Witness for `identify_bank_contract` at a concrete unknown-bank subject. -/
theorem identify_bank_contract_witness :
    pyIn "statement" (pyLower "Your statement is ready") = true ∧
    (identify_bank "Your statement is ready" "a@b.example").isSome = true :=
  ⟨by decide, identify_bank_contract.2 "Your statement is ready" "a@b.example" (by decide)⟩

/-- C10: any subject containing the word `purchase` is classified as the bank
`chase`, because identification tests raw substring containment and `chase`
is a substring of `purchase` (and chase is first in registration order). -/
theorem identify_bank_purchase (subject sender : String)
    (h : pyIn "purchase" subject = true) :
    identify_bank subject sender = some "chase" := by
  rcases containsSub_iff_ex.mp h with ⟨u, v, huv⟩
  have hchase : pyIn "chase" (pyLower subject) = true := by
    apply containsSub_iff_ex.mpr
    refine ⟨u.map Char.toLower ++ "pur".toList, v.map Char.toLower, ?_⟩
    have hmap : "purchase".toList.map Char.toLower = "pur".toList ++ "chase".toList := by decide
    rw [toList_pyLower, huv, List.map_append, List.map_append, hmap]
    simp [List.append_assoc]
  unfold identify_bank banks identifyLoop bankMatches
  simp [hchase]

/-- Witness for `identify_bank_purchase`. -/
theorem identify_bank_purchase_witness :
    pyIn "purchase" "Re: purchase order" = true ∧
    identify_bank "Re: purchase order" "shop@mail.example" = some "chase" :=
  ⟨by decide, identify_bank_purchase "Re: purchase order" "shop@mail.example" (by decide)⟩

/-- Numeric value of a digit string, most significant first. -/
def natOfDigits (cs : List Char) : ℕ :=
  cs.foldl (fun a c => 10 * a + (c.toNat - 48)) 0

/-- Python whitespace recognised by `float()` and by the `\s` regex class. -/
def isPyWS (c : Char) : Bool :=
  c = ' ' || c = '\t' || c = '\n' || c = '\r' || c = '\x0b' || c = '\x0c'

/-- Strip leading and trailing whitespace. -/
def trimWS (cs : List Char) : List Char :=
  ((cs.dropWhile isPyWS).reverse.dropWhile isPyWS).reverse

/-- Magnitude part of a Python decimal literal: digits with an optional
fractional part, at least one digit overall. -/
def pyFloatMag (cs : List Char) : Option ℚ :=
  let ip := cs.takeWhile Char.isDigit
  match cs.dropWhile Char.isDigit with
  | [] => if ip.isEmpty then none else some (mkRat (natOfDigits ip) 1)
  | '.' :: r2 =>
    let fp := r2.takeWhile Char.isDigit
    if (r2.dropWhile Char.isDigit).isEmpty then
      if ip.isEmpty && fp.isEmpty then none
      else some (mkRat (natOfDigits ip * 10 ^ fp.length + natOfDigits fp) (10 ^ fp.length))
    else none
  | _ => none

/-- Model of Python `float()` restricted to signed decimal literals (optional
surrounding whitespace, optional sign, digits, optional fractional part);
exponent and special forms never arise from the extraction patterns. -/
def pyFloat? (s : String) : Option ℚ :=
  match trimWS s.toList with
  | '+' :: r => pyFloatMag r
  | '-' :: r => (pyFloatMag r).map (fun q => -q)
  | r => pyFloatMag r

/-- Python `amount_str.replace(',', '')`. -/
def stripCommas (s : String) : String :=
  String.mk (s.toList.filter (fun c => c != ','))

/-- `parse_amount`: strip thousands commas, parse as float, and absorb any
parse failure into `0.0`. -/
def parse_amount (s : String) : ℚ :=
  (pyFloat? (stripCommas s)).getD 0

/-- C6: the amount parser strips comma grouping separators and returns the
parsed decimal value, and returns `0.0` on any malformed input instead of
raising; in particular `parse("1,234.56") = 1234.56` and
`parse("garbage") = 0.0`. -/
theorem parse_amount_contract :
    parse_amount "1,234.56" = 123456 / 100 ∧
    parse_amount "garbage" = 0 ∧
    (∀ s q, pyFloat? (stripCommas s) = some q → parse_amount s = q) ∧
    (∀ s, pyFloat? (stripCommas s) = none → parse_amount s = 0) := by
  refine ⟨?_, by decide, ?_, ?_⟩
  · have h : parse_amount "1,234.56" = mkRat 123456 100 := by decide
    rw [h, Rat.mkRat_eq_divInt, Rat.divInt_eq_div]
    norm_num
  · intro s q h
    simp [parse_amount, h]
  · intro s h
    simp [parse_amount, h]

/-- Witness for `parse_amount_contract` at the round-trip input. -/
theorem parse_amount_contract_witness :
    pyFloat? (stripCommas "1,234.56") = some (mkRat 123456 100) ∧
    parse_amount "1,234.56" = mkRat 123456 100 :=
  ⟨by decide, parse_amount_contract.2.2.1 "1,234.56" _ (by decide)⟩

/-! Pattern matchers: each regex of the source is embedded as a matcher over
`List Char`. The regexes involved are deterministic (no productive
backtracking except in the filename date pattern, where the alternatives are
enumerated in the engine's greedy order), `.*?` is the non-greedy any-char
scan that cannot cross a newline, and `re.search` is the scan for the
leftmost matching start position. -/

/-- Match a literal character sequence. -/
def litM : List Char → List Char → Option (List Char)
  | [], cs => some cs
  | _, [] => none
  | l :: ls, c :: cs => if c = l then litM ls cs else none

/-- Match one character out of a two-letter class such as `[Ee]`, then a
literal remainder: the shape of the label words in the source regexes. -/
def word2 (u l : Char) (rest : String) : List Char → Option (List Char)
  | c :: cs => if c = u || c = l then litM rest.toList cs else none
  | [] => none

/-- Case-insensitive literal match, for the two `re.IGNORECASE` patterns. -/
def litCIM : List Char → List Char → Option (List Char)
  | [], cs => some cs
  | _, [] => none
  | l :: ls, c :: cs => if c.toLower = l then litCIM ls cs else none

/-- Greedy `\s*`. -/
def dropWS (cs : List Char) : List Char := cs.dropWhile isPyWS

/-- Optional single character (`:?`, `[\$]?`). -/
def optChar (x : Char) (cs : List Char) : List Char :=
  match cs with
  | c :: r => if c = x then r else cs
  | [] => cs

/-- Exactly `n` digit characters. -/
def digitsN : Nat → List Char → Option (List Char × List Char)
  | 0, cs => some ([], cs)
  | _ + 1, [] => none
  | n + 1, c :: cs =>
    if c.isDigit then (digitsN n cs).map (fun p => (c :: p.1, p.2)) else none

/-- A date `\d{2}/\d{2}/\d{4}`, returning the matched characters. -/
def date8 (cs : List Char) : Option (List Char × List Char) := do
  let (a, cs) ← digitsN 2 cs
  let cs ← litM ['/'] cs
  let (b, cs) ← digitsN 2 cs
  let cs ← litM ['/'] cs
  let (c, cs) ← digitsN 4 cs
  pure (a ++ '/' :: b ++ '/' :: c, cs)

/-- The character class `[\d,]`. -/
def isAmtChar (c : Char) : Bool := c.isDigit || c = ','

/-- The amount tail `[\$]?([\d,]+\.\d{2})`, returning capture group 1. -/
def amountGroup (cs : List Char) : Option (List Char) :=
  let cs := optChar '$' cs
  let run := cs.takeWhile isAmtChar
  if run.isEmpty then none
  else
    match cs.dropWhile isAmtChar with
    | '.' :: r2 =>
      match digitsN 2 r2 with
      | some (dd, _) => some (run ++ '.' :: dd)
      | none => none
    | _ => none

/-- Non-greedy `.*?` followed by `f`: try `f` at the shortest extension
first; `.` does not match a newline. -/
def lazyDotM (f : List Char → Option α) : List Char → Option α
  | [] => f []
  | c :: r =>
    match f (c :: r) with
    | some a => some a
    | none => if c = '\n' then none else lazyDotM f r

/-- `re.search`: try the pattern at each start position, leftmost first. -/
def searchM (f : List Char → Option α) : List Char → Option α
  | [] => f []
  | c :: r =>
    match f (c :: r) with
    | some a => some a
    | none => searchM f r

/-- First pattern of a fallback chain that matches anywhere in the text. -/
def firstMatch (text : List Char) : List (List Char → Option α) → Option α
  | [] => none
  | p :: ps =>
    match searchM p text with
    | some r => some r
    | none => firstMatch text ps

/-- The character class `[to|-]` of the chase / bofa / wells statement-period
regex: one single character among `t`, `o`, `|`, `-`. -/
def sepCharClass : List Char → Option (List Char)
  | c :: r => if c = 't' || c = 'o' || c = '|' || c = '-' then some r else none
  | [] => none

/-- The alternation `(?:through|to|-)` of the citi and generic period
regexes. -/
def rangeWord (cs : List Char) : Option (List Char) :=
  litM "through".toList cs <|> litM "to".toList cs <|> litM "-".toList cs

/-- The `-` separator of the capital-one period regex. -/
def hyphenSep (cs : List Char) : Option (List Char) := litM ['-'] cs

/-- Common tail `:?\s*(\d{2}/\d{2}/\d{4})\s*SEP\s*(\d{2}/\d{2}/\d{4})` of the
two-date period regexes, parametrised by the separator. -/
def periodTail (sep : List Char → Option (List Char)) (cs : List Char) :
    Option (List Char × List Char) := do
  let cs := optChar ':' cs
  let cs := dropWS cs
  let (d1, cs) ← date8 cs
  let cs := dropWS cs
  let cs ← sep cs
  let cs := dropWS cs
  let (d2, _) ← date8 cs
  pure (d1, d2)

/-- `[Ss]tatement [Pp]eriod` followed by `periodTail sep`. -/
def statementPeriodAt (sep : List Char → Option (List Char)) (cs : List Char) :
    Option (List Char × List Char) := do
  let cs ← word2 'S' 's' "tatement " cs
  let cs ← word2 'P' 'p' "eriod" cs
  periodTail sep cs

/-- Generic pattern `[Ss]tatement [Dd]ate:?\s*(\d{2}/\d{2}/\d{4})`. -/
def statementDateAt (cs : List Char) : Option (List Char) := do
  let cs ← word2 'S' 's' "tatement " cs
  let cs ← word2 'D' 'd' "ate" cs
  let cs := optChar ':' cs
  let cs := dropWS cs
  let (d1, _) ← date8 cs
  pure d1

/-- Generic pattern `[Pp]eriod:?\s*(date)\s*(?:through|to|-)\s*(date)`. -/
def periodLabelAt (cs : List Char) : Option (List Char × List Char) := do
  let cs ← word2 'P' 'p' "eriod" cs
  periodTail rangeWord cs

/-- `[Ee]nding [Bb]alance.*?[\$]?([\d,]+\.\d{2})`. -/
def endingBalanceAt (cs : List Char) : Option (List Char) := do
  let cs ← word2 'E' 'e' "nding " cs
  let cs ← word2 'B' 'b' "alance" cs
  lazyDotM amountGroup cs

/-- Generic pattern `[Bb]alance:?\s*[\$]?([\d,]+\.\d{2})`. -/
def balanceColonAt (cs : List Char) : Option (List Char) := do
  let cs ← word2 'B' 'b' "alance" cs
  let cs := optChar ':' cs
  let cs := dropWS cs
  amountGroup cs

/-- Generic pattern `[Cc]losing [Bb]alance.*?[\$]?([\d,]+\.\d{2})`. -/
def closingBalanceAt (cs : List Char) : Option (List Char) := do
  let cs ← word2 'C' 'c' "losing " cs
  let cs ← word2 'B' 'b' "alance" cs
  lazyDotM amountGroup cs

/-- Generic pattern `[Tt]otal [Bb]alance.*?[\$]?([\d,]+\.\d{2})`. -/
def totalBalanceAt (cs : List Char) : Option (List Char) := do
  let cs ← word2 'T' 't' "otal " cs
  let cs ← word2 'B' 'b' "alance" cs
  lazyDotM amountGroup cs

/-- Citi balance pattern `[Bb]alance on \d{2}/\d{2}/\d{4}.*?[\$]?(amount)`. -/
def citiBalanceAt (cs : List Char) : Option (List Char) := do
  let cs ← word2 'B' 'b' "alance on " cs
  let (_, cs) ← date8 cs
  lazyDotM amountGroup cs

/-- A `[Tt]otal WORD.*?[\$]?(amount)` pattern where WORD begins with its own
two-letter class, e.g. `[Dd]eposits`. -/
def totalWordAt (u l : Char) (rest : String) (cs : List Char) : Option (List Char) := do
  let cs ← word2 'T' 't' "otal " cs
  let cs ← word2 u l rest cs
  lazyDotM amountGroup cs

/-- Chase credits pattern
`[Tt]otal [Dd]eposits (?:and [Cc]redits|and [Oo]ther [Aa]dditions).*?(amount)`. -/
def chaseCreditsAt (cs : List Char) : Option (List Char) := do
  let cs ← word2 'T' 't' "otal " cs
  let cs ← word2 'D' 'd' "eposits " cs
  let cs ← litM "and ".toList cs
  let cs ← word2 'C' 'c' "redits" cs <|>
    (do let cs ← word2 'O' 'o' "ther " cs; word2 'A' 'a' "dditions" cs)
  lazyDotM amountGroup cs

/-- Chase debits pattern
`[Tt]otal [Ww]ithdrawals (?:and [Dd]ebits|and [Ff]ees).*?(amount)`. -/
def chaseDebitsAt (cs : List Char) : Option (List Char) := do
  let cs ← word2 'T' 't' "otal " cs
  let cs ← word2 'W' 'w' "ithdrawals " cs
  let cs ← litM "and ".toList cs
  let cs ← word2 'D' 'd' "ebits" cs <|>
    (do word2 'F' 'f' "ees" cs)
  lazyDotM amountGroup cs

/-- Case-insensitive `total deposits.*?(amount)` (bofa, `re.IGNORECASE`). -/
def bofaCreditsAt (cs : List Char) : Option (List Char) := do
  let cs ← litCIM "total deposits".toList cs
  lazyDotM amountGroup cs

/-- Case-insensitive `total withdrawals.*?(amount)` (bofa, `re.IGNORECASE`). -/
def bofaDebitsAt (cs : List Char) : Option (List Char) := do
  let cs ← litCIM "total withdrawals".toList cs
  lazyDotM amountGroup cs

/-- Generic pattern `[Dd]eposits [Ss]um:?\s*[\$]?(amount)`. -/
def depositsSumAt (cs : List Char) : Option (List Char) := do
  let cs ← word2 'D' 'd' "eposits " cs
  let cs ← word2 'S' 's' "um" cs
  let cs := optChar ':' cs
  let cs := dropWS cs
  amountGroup cs

/-- Generic pattern `[Ww]ithdrawals [Ss]um:?\s*[\$]?(amount)`. -/
def withdrawalsSumAt (cs : List Char) : Option (List Char) := do
  let cs ← word2 'W' 'w' "ithdrawals " cs
  let cs ← word2 'S' 's' "um" cs
  let cs := optChar ':' cs
  let cs := dropWS cs
  amountGroup cs

/-- The record built by `extract_data_from_pdf`: the `data` dict. Monetary
floats are rationals; fields that start as `None` are `Option`s. -/
structure StatementData where
  bank : String
  date : Option String
  closing_balance : Option ℚ
  total_credits : ℚ
  total_debits : ℚ
  statement_period : Option String
deriving DecidableEq

/-- The initial `data` dict of `extract_data_from_pdf`. -/
def initData (bank_name : String) : StatementData :=
  { bank := bank_name, date := none, closing_balance := none,
    total_credits := 0, total_debits := 0, statement_period := none }

/-- Python `str.split(sep)` for a single-character separator. -/
def splitOnChar (sep : Char) : List Char → List (List Char)
  | [] => [[]]
  | c :: r =>
    let ps := splitOnChar sep r
    if c = sep then [] :: ps
    else
      match ps with
      | p :: rest => (c :: p) :: rest
      | [] => [[c]]

/-- `f"{date_parts[2]}-{date_parts[0]}"` after `split('/')` of a matched
`MM/DD/YYYY` date. -/
def dateFromMDY (d : String) : String :=
  let ps := splitOnChar '/' d.toList
  String.mk (ps.getD 2 [] ++ '-' :: ps.getD 0 [])

/-- Store a matched balance group. -/
def putBalance (data : StatementData) : Option (List Char) → StatementData
  | some g => { data with closing_balance := some (parse_amount (String.mk g)) }
  | none => data

/-- Store a matched two-date period: `statement_period` is the literal
`"date1 - date2"` and `date` is derived from the end date. -/
def putPeriod (data : StatementData) : Option (List Char × List Char) → StatementData
  | some (d1, d2) =>
    { data with
      statement_period := some (String.mk d1 ++ " - " ++ String.mk d2),
      date := some (dateFromMDY (String.mk d2)) }
  | none => data

/-- Store a matched credits group. -/
def putCredits (data : StatementData) : Option (List Char) → StatementData
  | some g => { data with total_credits := parse_amount (String.mk g) }
  | none => data

/-- Store a matched debits group. -/
def putDebits (data : StatementData) : Option (List Char) → StatementData
  | some g => { data with total_debits := parse_amount (String.mk g) }
  | none => data

/-- `extract_chase_data(text, data)`. -/
def extract_chase_data (text : String) (data : StatementData) : StatementData :=
  let t := text.toList
  let data := putBalance data (searchM endingBalanceAt t)
  let data := putPeriod data (searchM (statementPeriodAt sepCharClass) t)
  let data := putCredits data (searchM chaseCreditsAt t)
  putDebits data (searchM chaseDebitsAt t)

/-- `extract_bofa_data(text, data)`. -/
def extract_bofa_data (text : String) (data : StatementData) : StatementData :=
  let t := text.toList
  let data := putBalance data (searchM endingBalanceAt t)
  let data := putPeriod data (searchM (statementPeriodAt sepCharClass) t)
  let data := putCredits data (searchM bofaCreditsAt t)
  putDebits data (searchM bofaDebitsAt t)

/-- `extract_wells_fargo_data(text, data)`. -/
def extract_wells_fargo_data (text : String) (data : StatementData) : StatementData :=
  let t := text.toList
  let data := putBalance data (searchM endingBalanceAt t)
  let data := putPeriod data (searchM (statementPeriodAt sepCharClass) t)
  let data := putCredits data (searchM (totalWordAt 'D' 'd' "eposits") t)
  putDebits data (searchM (totalWordAt 'W' 'w' "ithdrawals") t)

/-- `extract_citi_data(text, data)`. -/
def extract_citi_data (text : String) (data : StatementData) : StatementData :=
  let t := text.toList
  let data := putBalance data (searchM citiBalanceAt t)
  let data := putPeriod data (searchM (statementPeriodAt rangeWord) t)
  let data := putCredits data (searchM (totalWordAt 'C' 'c' "redits") t)
  putDebits data (searchM (totalWordAt 'D' 'd' "ebits") t)

/-- `extract_capital_one_data(text, data)`. -/
def extract_capital_one_data (text : String) (data : StatementData) : StatementData :=
  let t := text.toList
  let data := putBalance data (searchM endingBalanceAt t)
  let data := putPeriod data (searchM (statementPeriodAt hyphenSep) t)
  let data := putCredits data (searchM (totalWordAt 'C' 'c' "redits") t)
  putDebits data (searchM (totalWordAt 'D' 'd' "ebits") t)

/-- The generic statement-period fallback chain: the first matching pattern
decides; a two-date match yields (`"d1 - d2"`, end date), a single-date
match yields (`d1`, `d1`). -/
def genericPeriod (t : List Char) : Option (String × String) :=
  match searchM (statementPeriodAt rangeWord) t with
  | some (d1, d2) => some (String.mk d1 ++ " - " ++ String.mk d2, String.mk d2)
  | none =>
    match searchM statementDateAt t with
    | some d1 => some (String.mk d1, String.mk d1)
    | none =>
      match searchM periodLabelAt t with
      | some (d1, d2) => some (String.mk d1 ++ " - " ++ String.mk d2, String.mk d2)
      | none => none

/-- `extract_generic_bank_data(text, data)`: ordered fallback chains of
patterns for each field, first match wins. -/
def extract_generic_bank_data (text : String) (data : StatementData) : StatementData :=
  let t := text.toList
  let data :=
    putBalance data
      (firstMatch t [endingBalanceAt, balanceColonAt, closingBalanceAt, totalBalanceAt])
  let data :=
    match genericPeriod t with
    | some (p, dsrc) =>
      { data with statement_period := some p, date := some (dateFromMDY dsrc) }
    | none => data
  let data :=
    putCredits data
      (firstMatch t [totalWordAt 'D' 'd' "eposits", totalWordAt 'C' 'c' "redits", depositsSumAt])
  putDebits data
    (firstMatch t [totalWordAt 'W' 'w' "ithdrawals", totalWordAt 'D' 'd' "ebits", withdrawalsSumAt])

/-- Ordered alternatives, first success wins (regex backtracking order). -/
def firstSomeList (f : α → Option β) : List α → Option β
  | [] => none
  | a :: rest =>
    match f a with
    | some b => some b
    | none => firstSomeList f rest

/-- The greedy alternatives of `[-_]?` at a position: consume a separator if
one is present, else the empty alternative. -/
def sepOptAlts (cs : List Char) : List (List Char × List Char) :=
  match cs with
  | c :: r => if c = '-' || c = '_' then [([c], r), ([], cs)] else [([], cs)]
  | [] => [([], [])]

/-- The filename date pattern `(\d{2,4}[-_]?\d{2}[-_]?\d{2,4})` at one
position, with the engine's greedy backtracking order (`{2,4}` tries 4, 3,
then 2 digits). Returns the matched substring. -/
def fnDateAt (cs : List Char) : Option (List Char) :=
  firstSomeList
    (fun n1 =>
      match digitsN n1 cs with
      | none => none
      | some (a, r1) =>
        firstSomeList
          (fun p1 =>
            match digitsN 2 p1.2 with
            | none => none
            | some (b, r3) =>
              firstSomeList
                (fun p2 =>
                  firstSomeList
                    (fun n2 =>
                      match digitsN n2 p2.2 with
                      | none => none
                      | some (c, _) => some (a ++ p1.1 ++ b ++ p2.1 ++ c))
                    [4, 3, 2])
                (sepOptAlts r3))
          (sepOptAlts r1))
    [4, 3, 2]

/-- `os.path.basename`: the part of the path after the last `/`. -/
def basename (p : String) : String :=
  String.mk ((p.toList.reverse.takeWhile (fun c => c != '/')).reverse)

/-- Python truthiness test `not data['date']` on an optional string: `None`
and the empty string are falsy. -/
def dateFalsy : Option String → Bool
  | none => true
  | some s => s == ""

/-- The date-fallback block of `extract_data_from_pdf`: when no date was
extracted from the text, use a date-shaped substring of the filename, else
the current year-month. -/
def withDateFallback (data : StatementData) (pdf_path now : String) : StatementData :=
  if dateFalsy data.date then
    match searchM fnDateAt (basename pdf_path).toList with
    | some m => { data with date := some (String.mk m) }
    | none => { data with date := some now }
  else data

/-- The per-bank dispatch of `extract_data_from_pdf` (case-insensitive
substring tests on the bank name, generic fallback). -/
def dispatchExtract (bank_name text : String) : StatementData :=
  let lb := pyLower bank_name
  let data0 := initData bank_name
  if pyIn "chase" lb then extract_chase_data text data0
  else if pyIn "bank of america" lb then extract_bofa_data text data0
  else if pyIn "wells fargo" lb then extract_wells_fargo_data text data0
  else if pyIn "citi" lb then extract_citi_data text data0
  else if pyIn "capital one" lb then extract_capital_one_data text data0
  else extract_generic_bank_data text data0

/-- `extract_data_from_pdf(pdf_path, bank_name)`. The fallible
document-to-text step is an explicit argument: `none` models a read that
raises, in which case the `except` clause returns the initial record
unchanged; `now` is the current year-month used by the final fallback. -/
def extract_data_from_pdf (textResult : Option String) (pdf_path bank_name now : String) :
    StatementData :=
  match textResult with
  | none => initData bank_name
  | some text => withDateFallback (dispatchExtract bank_name text) pdf_path now

/-- C2 (divergence witness): with the word `to` between the two dates, the
chase-style period regex does not match, because `[to|-]` is a character
class matching one single character; the generic rule set, whose regex uses
the group `(?:through|to|-)`, does match and fills both fields. A hyphen
separator works under both rule sets. -/
theorem statement_period_to_separator :
    (extract_chase_data "Statement Period: 01/01/2025 to 03/31/2025"
        (initData "chase")).statement_period = none ∧
    (extract_chase_data "Statement Period: 01/01/2025 to 03/31/2025"
        (initData "chase")).date = none ∧
    (extract_bofa_data "Statement Period: 01/01/2025 to 03/31/2025"
        (initData "bank of america")).statement_period = none ∧
    (extract_wells_fargo_data "Statement Period: 01/01/2025 to 03/31/2025"
        (initData "wells fargo")).statement_period = none ∧
    (extract_chase_data "Statement Period: 01/01/2025 - 03/31/2025"
        (initData "chase")).statement_period = some "01/01/2025 - 03/31/2025" ∧
    (extract_generic_bank_data "Statement Period: 01/01/2025 to 03/31/2025"
        (initData "unknown bank")).statement_period = some "01/01/2025 - 03/31/2025" ∧
    (extract_generic_bank_data "Statement Period: 01/01/2025 to 03/31/2025"
        (initData "unknown bank")).date = some "2025-03" :=
  ⟨by decide, by decide, by decide, by decide, by decide, by decide, by decide⟩

/-- C7: a document whose read step raises does not abort extraction: the
record is still returned, with the bank field populated and null / zero
defaults for everything else. -/
theorem extract_error_returns_defaults (pdf_path bank_name now : String) :
    extract_data_from_pdf none pdf_path bank_name now =
      { bank := bank_name, date := none, closing_balance := none,
        total_credits := 0, total_debits := 0, statement_period := none } := rfl

/-- C5 (counterexample): when the document read raises, the returned
record's date field is null, contradicting the unconditional claim. -/
theorem extract_date_none_on_read_failure :
    (extract_data_from_pdf none "statement.pdf" "chase" "2025-04").date = none := rfl

/-- C5 (amended): whenever the document text is read successfully, the
returned date is never null — the text-extraction result, the filename
fallback, or the current year-month always fills it. -/
theorem extract_date_some_of_text_read (text pdf_path bank_name now : String) :
    ((extract_data_from_pdf (some text) pdf_path bank_name now).date).isSome = true := by
  show ((withDateFallback (dispatchExtract bank_name text) pdf_path now).date).isSome = true
  unfold withDateFallback
  by_cases h : dateFalsy (dispatchExtract bank_name text).date = true
  · simp only [h, if_true]
    cases searchM fnDateAt (basename pdf_path).toList <;> simp
  · simp only [h, if_false]
    cases hd : (dispatchExtract bank_name text).date with
    | none => rw [hd] at h; simp [dateFalsy] at h
    | some s => simp [hd]

theorem takeWhile_append_all {p : Char → Bool} {u : List Char} (t : List Char)
    (h : ∀ c ∈ u, p c = true) : (u ++ t).takeWhile p = u ++ t.takeWhile p := by
  induction u with
  | nil => simp
  | cons a u ih =>
    have ha : p a = true := h a (List.mem_cons_self a u)
    simp [List.takeWhile_cons, ha, ih fun c hc => h c (List.mem_cons_of_mem a hc)]

theorem dropWhile_append_all {p : Char → Bool} {u : List Char} (t : List Char)
    (h : ∀ c ∈ u, p c = true) : (u ++ t).dropWhile p = t.dropWhile p := by
  induction u with
  | nil => simp
  | cons a u ih =>
    have ha : p a = true := h a (List.mem_cons_self a u)
    simp [List.dropWhile_cons, ha, ih fun c hc => h c (List.mem_cons_of_mem a hc)]

theorem digitsN_two (d1 d2 : Char) (rest : List Char)
    (h1 : d1.isDigit = true) (h2 : d2.isDigit = true) :
    digitsN 2 (d1 :: d2 :: rest) = some ([d1, d2], rest) := by
  simp [digitsN, h1, h2]

theorem amountGroup_at (ds : List Char) (d1 d2 : Char) (rest : List Char)
    (hne : ds ≠ []) (hds : ∀ c ∈ ds, c.isDigit = true)
    (h1 : d1.isDigit = true) (h2 : d2.isDigit = true) :
    amountGroup ('$' :: (ds ++ '.' :: d1 :: d2 :: rest)) = some (ds ++ '.' :: [d1, d2]) := by
  have hall : ∀ c ∈ ds, isAmtChar c = true := fun c hc => by simp [isAmtChar, hds c hc]
  have hopt : optChar '$' ('$' :: (ds ++ '.' :: d1 :: d2 :: rest)) =
      ds ++ '.' :: d1 :: d2 :: rest := by simp [optChar]
  have htake : List.takeWhile isAmtChar (ds ++ '.' :: d1 :: d2 :: rest) = ds := by
    rw [takeWhile_append_all _ hall, List.takeWhile_cons]
    simp [show isAmtChar '.' = false from by decide]
  have hdrop : List.dropWhile isAmtChar (ds ++ '.' :: d1 :: d2 :: rest) =
      '.' :: d1 :: d2 :: rest := by
    rw [dropWhile_append_all _ hall, List.dropWhile_cons]
    simp [show isAmtChar '.' = false from by decide]
  have hde : ds.isEmpty = false := by
    cases ds with
    | nil => exact absurd rfl hne
    | cons a l => rfl
  simp only [amountGroup, hopt, htake, hdrop, hde, Bool.false_eq_true, if_false,
    digitsN_two d1 d2 rest h1 h2]

theorem amountGroup_none_of_bad_head (u tail : List Char) (hu : u ≠ [])
    (h : ∀ c ∈ u, isAmtChar c = false) :
    amountGroup (u ++ '$' :: tail) = none := by
  cases u with
  | nil => exact absurd rfl hu
  | cons a u2 =>
    have ha : isAmtChar a = false := h a (List.mem_cons_self a u2)
    have hopt : optChar '$' ((a :: u2) ++ '$' :: tail) =
        if a = '$' then u2 ++ '$' :: tail else (a :: u2) ++ '$' :: tail := by
      simp [optChar]
    by_cases hd : a = '$'
    · subst hd
      rw [if_pos rfl] at hopt
      have hts : List.takeWhile isAmtChar (u2 ++ '$' :: tail) = [] := by
        cases u2 with
        | nil =>
          rw [List.nil_append, List.takeWhile_cons]
          simp [show isAmtChar '$' = false from by decide]
        | cons b u3 =>
          have hb : isAmtChar b = false :=
            h b (List.mem_cons_of_mem _ (List.mem_cons_self b u3))
          rw [List.cons_append, List.takeWhile_cons]
          simp [hb]
      simp only [amountGroup, hopt, hts]
      rfl
    · rw [if_neg hd] at hopt
      have hts : List.takeWhile isAmtChar ((a :: u2) ++ '$' :: tail) = [] := by
        rw [List.cons_append, List.takeWhile_cons]
        simp [ha]
      simp only [amountGroup, hopt, hts]
      rfl

theorem lazyDotM_cons_some {f : List Char → Option α} {c : Char} {r : List Char} {a : α}
    (h : f (c :: r) = some a) : lazyDotM f (c :: r) = some a := by
  conv_lhs => rw [lazyDotM]
  rw [h]

theorem lazyDotM_cons_none {f : List Char → Option α} {c : Char} {r : List Char}
    (h : f (c :: r) = none) (hc : c ≠ '\n') : lazyDotM f (c :: r) = lazyDotM f r := by
  conv_lhs => rw [lazyDotM]
  rw [h, if_neg hc]

theorem lazy_amount_scan (mid ds : List Char) (d1 d2 : Char) (rest : List Char)
    (hmid : ∀ c ∈ mid, isAmtChar c = false ∧ c ≠ '\n')
    (hne : ds ≠ []) (hds : ∀ c ∈ ds, c.isDigit = true)
    (h1 : d1.isDigit = true) (h2 : d2.isDigit = true) :
    lazyDotM amountGroup (mid ++ '$' :: (ds ++ '.' :: d1 :: d2 :: rest)) =
      some (ds ++ '.' :: [d1, d2]) := by
  induction mid with
  | nil =>
    rw [List.nil_append]
    exact lazyDotM_cons_some (amountGroup_at ds d1 d2 rest hne hds h1 h2)
  | cons m ms ih =>
    have hfail : amountGroup ((m :: ms) ++ '$' :: (ds ++ '.' :: d1 :: d2 :: rest)) = none :=
      amountGroup_none_of_bad_head _ _ (by simp) (fun c hc => (hmid c hc).1)
    rw [List.cons_append] at hfail ⊢
    rw [lazyDotM_cons_none hfail (hmid m (List.mem_cons_self m ms)).2]
    exact ih fun c hc => hmid c (List.mem_cons_of_mem m hc)

theorem searchM_here {f : List Char → Option α} {cs : List Char} {a : α}
    (h : f cs = some a) : searchM f cs = some a := by
  cases cs with
  | nil =>
    conv_lhs => rw [searchM]
    exact h
  | cons c r =>
    conv_lhs => rw [searchM]
    rw [h]

theorem endingBalance_label (rest0 : List Char) :
    endingBalanceAt ("Ending Balance".toList ++ rest0) = lazyDotM amountGroup rest0 := by
  simp [endingBalanceAt, word2, litM, String.toList]

theorem closing_of_putPeriod (d : StatementData) (o : Option (List Char × List Char)) :
    (putPeriod d o).closing_balance = d.closing_balance := by
  cases o with
  | none => rfl
  | some p => cases p; rfl

theorem closing_of_putCredits (d : StatementData) (o : Option (List Char)) :
    (putCredits d o).closing_balance = d.closing_balance := by
  cases o <;> rfl

theorem closing_of_putDebits (d : StatementData) (o : Option (List Char)) :
    (putDebits d o).closing_balance = d.closing_balance := by
  cases o <;> rfl

/-- C4 (amended): when an `Ending Balance` label is followed — later on the
same line, across characters that are not digits, commas or newlines — by a
currency symbol and an amount `digits.dd`, chase extraction sets the closing
balance to that amount as parsed by the amount parser; concretely, text
containing `Ending Balance ... $1,200.00` under bank `chase` yields a
closing balance of `1200.00`. -/
theorem chase_closing_balance_extraction :
    (∀ (mid ds : List Char) (d1 d2 : Char) (rest : List Char) (dta : StatementData),
      (∀ c ∈ mid, isAmtChar c = false ∧ c ≠ '\n') →
      ds ≠ [] → (∀ c ∈ ds, c.isDigit = true) →
      d1.isDigit = true → d2.isDigit = true →
      (extract_chase_data
          (String.mk ("Ending Balance".toList ++ mid ++ '$' :: (ds ++ '.' :: d1 :: d2 :: rest)))
          dta).closing_balance =
        some (parse_amount (String.mk (ds ++ '.' :: [d1, d2])))) ∧
    (extract_chase_data "Ending Balance ... $1,200.00"
        (initData "chase")).closing_balance = some (mkRat 1200 1) := by
  constructor
  · intro mid ds d1 d2 rest dta hmid hne hds h1 h2
    unfold extract_chase_data
    rw [closing_of_putDebits, closing_of_putCredits, closing_of_putPeriod]
    have htext : (String.mk ("Ending Balance".toList ++ mid ++ '$' ::
        (ds ++ '.' :: d1 :: d2 :: rest))).toList =
        "Ending Balance".toList ++ (mid ++ '$' :: (ds ++ '.' :: d1 :: d2 :: rest)) := by
      simp [List.append_assoc]
    rw [htext]
    rw [searchM_here (by
      rw [endingBalance_label]
      exact lazy_amount_scan mid ds d1 d2 rest hmid hne hds h1 h2)]
    rfl
  · decide

/-- Witness for `chase_closing_balance_extraction` at a concrete text. -/
theorem chase_closing_balance_extraction_witness :
    (extract_chase_data
        (String.mk ("Ending Balance".toList ++ [' ', 'x', ' '] ++ '$' ::
          (['9', '8'] ++ '.' :: '7' :: '6' :: [])))
        (initData "chase")).closing_balance =
      some (parse_amount (String.mk (['9', '8'] ++ '.' :: ['7', '6']))) :=
  chase_closing_balance_extraction.1 [' ', 'x', ' '] ['9', '8'] '7' '6' [] (initData "chase")
    (by decide) (by decide) (by decide) (by decide) (by decide)

/-- C4 (counterexample): a newline between the label and the amount defeats
the non-greedy `.*?` span, so the closing balance is not extracted even
though the amount occurs later in the text. -/
theorem chase_balance_newline_counterexample :
    (extract_chase_data "Ending Balance\n$1,200.00"
        (initData "chase")).closing_balance = none := by decide

/-! The `write_to_excel` merge (lines 438-452): concatenate the existing
sheet with the incoming frame, `drop_duplicates(subset=['bank', 'date'],
keep='last')`, and `sort_values(['date', 'bank'])`. Rows carry the full
sheet schema. `sort_values` is modelled as a stable sort (insertion sort);
after deduplication the sort keys are pairwise distinct, so the order of the
result does not depend on the sorting algorithm. -/

/-- One row of the `Bank Statements` sheet. -/
structure XRow where
  bank : String
  date : String
  closing_balance : Option ℚ
  total_credits : ℚ
  total_debits : ℚ
  statement_period : Option String
  net_cash_flow : ℚ
  month : String
deriving DecidableEq

/-- Test against the dedup key `(bank, date)`. -/
def keyMatch (b d : String) (y : XRow) : Bool := y.bank == b && y.date == d

/-- `drop_duplicates(subset=['bank', 'date'], keep='last')`: a row is kept
iff no later row has the same key; kept rows stay in their original order. -/
def keepLast : List XRow → List XRow
  | [] => []
  | x :: xs => if xs.any (keyMatch x.bank x.date) then keepLast xs else x :: keepLast xs

/-- Lexicographic strict comparison of character lists by code point — the
string order used by Python and pandas when sorting object columns. -/
def listLtB : List Char → List Char → Bool
  | [], [] => false
  | [], _ :: _ => true
  | _ :: _, [] => false
  | a :: as2, b :: bs =>
    if a.toNat < b.toNat then true
    else if b.toNat < a.toNat then false
    else listLtB as2 bs

/-- Strict string comparison. -/
def strLtB (a b : String) : Bool := listLtB a.toList b.toList

/-- Non-strict string comparison, `a ≤ b ↔ ¬ b < a` for a total strict
order. -/
def strLeB (a b : String) : Bool := !(strLtB b a)

theorem listLtB_irrefl (l : List Char) : listLtB l l = false := by
  induction l with
  | nil => rfl
  | cons a l ih => simp [listLtB, ih]

theorem listLtB_asymm {a b : List Char} (h : listLtB a b = true) : listLtB b a = false := by
  induction a generalizing b with
  | nil =>
    cases b with
    | nil => simp [listLtB] at h
    | cons x xs => rfl
  | cons x xs ih =>
    cases b with
    | nil => simp [listLtB] at h
    | cons y ys =>
      by_cases h1 : x.toNat < y.toNat
      · have h2 : ¬ y.toNat < x.toNat := by omega
        simp only [listLtB, if_neg h2, if_pos h1]
      · by_cases h2 : y.toNat < x.toNat
        · simp [listLtB, h1, h2] at h
        · simp only [listLtB, if_neg h1, if_neg h2] at h
          simp only [listLtB, if_neg h1, if_neg h2]
          exact ih h

theorem listLtB_conn {a b : List Char} (h1 : listLtB a b = false)
    (h2 : listLtB b a = false) : a = b := by
  induction a generalizing b with
  | nil =>
    cases b with
    | nil => rfl
    | cons y ys => simp [listLtB] at h1
  | cons x xs ih =>
    cases b with
    | nil => simp [listLtB] at h2
    | cons y ys =>
      by_cases c1 : x.toNat < y.toNat
      · simp [listLtB, c1] at h1
      · by_cases c2 : y.toNat < x.toNat
        · simp [listLtB, c2] at h2
        · have hxy : x = y := by
            have hn : x.toNat = y.toNat := by omega
            exact Char.ext (UInt32.ext hn)
          simp only [listLtB, if_neg c1, if_neg c2] at h1 h2
          rw [hxy, ih h1 h2]

theorem listLtB_trans {a b c : List Char} (h1 : listLtB a b = true)
    (h2 : listLtB b c = true) : listLtB a c = true := by
  induction a generalizing b c with
  | nil =>
    cases c with
    | nil =>
      cases b with
      | nil => exact h1
      | cons y ys => simp [listLtB] at h2
    | cons z zs => rfl
  | cons x xs ih =>
    cases b with
    | nil => simp [listLtB] at h1
    | cons y ys =>
      cases c with
      | nil => simp [listLtB] at h2
      | cons z zs =>
        by_cases cxy : x.toNat < y.toNat
        · by_cases cyz : y.toNat < z.toNat
          · simp [listLtB, show x.toNat < z.toNat by omega]
          · by_cases czy : z.toNat < y.toNat
            · simp [listLtB, cyz, czy] at h2
            · have : y.toNat = z.toNat := by omega
              simp [listLtB, show x.toNat < z.toNat by omega]
        · by_cases cyx : y.toNat < x.toNat
          · simp [listLtB, cxy, cyx] at h1
          · have hxy : x.toNat = y.toNat := by omega
            simp only [listLtB, if_neg cxy, if_neg cyx] at h1
            by_cases cyz : y.toNat < z.toNat
            · simp [listLtB, show x.toNat < z.toNat by omega]
            · by_cases czy : z.toNat < y.toNat
              · simp [listLtB, cyz, czy] at h2
              · simp only [listLtB, if_neg cyz, if_neg czy] at h2
                simp only [listLtB, if_neg (by omega : ¬ x.toNat < z.toNat),
                  if_neg (by omega : ¬ z.toNat < x.toNat)]
                exact ih h1 h2

theorem strLtB_conn {a b : String} (h1 : strLtB a b = false)
    (h2 : strLtB b a = false) : a = b := by
  cases a with
  | mk da =>
    cases b with
    | mk db => exact congrArg String.mk (listLtB_conn h1 h2)

theorem strLtB_trans {a b c : String} (h1 : strLtB a b = true)
    (h2 : strLtB b c = true) : strLtB a c = true := listLtB_trans h1 h2

theorem strLtB_asymm {a b : String} (h : strLtB a b = true) : strLtB b a = false :=
  listLtB_asymm h

theorem strLtB_irrefl (a : String) : strLtB a a = false := listLtB_irrefl _

/-- The `sort_values(['date', 'bank'])` comparison as a boolean: date
ascending, then bank ascending. -/
def keyLEb (x y : XRow) : Bool :=
  strLtB x.date y.date || (x.date == y.date && strLeB x.bank y.bank)

/-- The sort comparison as a relation. -/
def keyLE (x y : XRow) : Prop := keyLEb x y = true

/-- Strict version of the sort comparison. -/
def keyLt (x y : XRow) : Prop :=
  (strLtB x.date y.date || (x.date == y.date && strLtB x.bank y.bank)) = true

instance : DecidableRel keyLE := fun x y => by unfold keyLE; infer_instance

instance : DecidableRel keyLt := fun x y => by unfold keyLt; infer_instance

instance : IsTotal XRow keyLE where
  total x y := by
    unfold keyLE keyLEb strLeB
    by_cases h1 : strLtB x.date y.date = true
    · simp [h1]
    · by_cases h2 : strLtB y.date x.date = true
      · simp [h2]
      · have he : x.date = y.date :=
          strLtB_conn (by simpa using h1) (by simpa using h2)
        by_cases hb : strLtB x.bank y.bank = true
        · have hba : strLtB y.bank x.bank = false := strLtB_asymm hb
          simp [he, hba]
        · simp [he, show strLtB x.bank y.bank = false by simpa using hb]

instance : IsTrans XRow keyLE where
  trans x y z hxy hyz := by
    unfold keyLE keyLEb strLeB at *
    simp only [Bool.or_eq_true, Bool.and_eq_true, beq_iff_eq, Bool.not_eq_true'] at *
    rcases hxy with h1 | ⟨e1, b1⟩
    · rcases hyz with h2 | ⟨e2, _⟩
      · exact Or.inl (strLtB_trans h1 h2)
      · exact Or.inl (e2 ▸ h1)
    · rcases hyz with h2 | ⟨e2, b2⟩
      · exact Or.inl (e1 ▸ h2)
      · refine Or.inr ⟨e1.trans e2, ?_⟩
        by_cases hxy2 : strLtB x.bank y.bank = true
        · cases hzx : strLtB z.bank x.bank with
          | false => rfl
          | true => exact absurd (strLtB_trans hzx hxy2) (by simp [b2])
        · have hx : x.bank = y.bank := strLtB_conn (by simpa using hxy2) b1
          rw [hx]
          exact b2

instance : IsAntisymm XRow keyLt where
  antisymm x y hxy hyx := by
    unfold keyLt at *
    simp only [Bool.or_eq_true, Bool.and_eq_true, beq_iff_eq] at *
    exfalso
    rcases hxy with h1 | ⟨e1, b1⟩ <;> rcases hyx with h2 | ⟨e2, b2⟩
    · exact absurd (strLtB_trans h1 h2) (by simp [strLtB_irrefl])
    · exact absurd (e2 ▸ h1) (by simp [strLtB_irrefl])
    · exact absurd (e1 ▸ h2) (by simp [strLtB_irrefl])
    · exact absurd (strLtB_trans b1 b2) (by simp [strLtB_irrefl])

/-- `sort_values(['date', 'bank'])` as a stable sort. -/
def sortRows (l : List XRow) : List XRow := List.insertionSort keyLE l

/-- The merge branch of `write_to_excel`: the incoming frame arrives sorted
(line 431), is appended to the existing sheet, deduplicated keep-last on
`(bank, date)`, and sorted again. -/
def mergeRecords (existing incoming : List XRow) : List XRow :=
  sortRows (keepLast (existing ++ sortRows incoming))

/-- The last row with key `(b, d)` in a row sequence, if any. -/
def lastWithKey (b d : String) (l : List XRow) : Option XRow :=
  (l.filter (keyMatch b d)).getLast?

theorem getLast?_cons_of_ne {α : Type} {a : α} {l : List α} (h : l ≠ []) :
    (a :: l).getLast? = l.getLast? := by
  cases l with
  | nil => exact absurd rfl h
  | cons b t => exact List.getLast?_cons_cons

theorem getLast?_none_iff {α : Type} {l : List α} : l.getLast? = none ↔ l = [] := by
  induction l with
  | nil => simp
  | cons a t ih =>
    cases t with
    | nil => simp [List.getLast?]
    | cons b t2 =>
      rw [List.getLast?_cons_cons]
      simp only [ih]
      simp

theorem getLast?_append_of_ne {α : Type} {l1 l2 : List α} (h : l2 ≠ []) :
    (l1 ++ l2).getLast? = l2.getLast? := by
  induction l1 with
  | nil => rfl
  | cons a t ih =>
    rw [List.cons_append, getLast?_cons_of_ne (by simp [h])]
    exact ih

theorem keyMatch_self (x : XRow) : keyMatch x.bank x.date x = true := by
  simp [keyMatch]

theorem keyMatch_eq {b d : String} {x : XRow} (h : keyMatch b d x = true) :
    x.bank = b ∧ x.date = d := by
  simpa [keyMatch] using h

theorem keepLast_subset {l : List XRow} {r : XRow} (h : r ∈ keepLast l) : r ∈ l := by
  induction l with
  | nil => simp [keepLast] at h
  | cons x xs ih =>
    unfold keepLast at h
    by_cases hany : xs.any (keyMatch x.bank x.date) = true
    · rw [if_pos hany] at h
      exact List.mem_cons_of_mem x (ih h)
    · rw [if_neg hany] at h
      rcases List.mem_cons.mp h with rfl | h2
      · exact List.mem_cons_self r xs
      · exact List.mem_cons_of_mem x (ih h2)

/-- Membership in the deduplicated sequence: a row survives iff it is the
last row bearing its `(bank, date)` key. -/
theorem mem_keepLast {l : List XRow} {r : XRow} :
    r ∈ keepLast l ↔ lastWithKey r.bank r.date l = some r := by
  induction l with
  | nil => simp [keepLast, lastWithKey]
  | cons x xs ih =>
    rw [lastWithKey] at ih ⊢
    unfold keepLast
    rw [List.filter_cons]
    by_cases hany : xs.any (keyMatch x.bank x.date) = true
    · rw [if_pos hany]
      by_cases hx : keyMatch r.bank r.date x = true
      · obtain ⟨hxb, hxd⟩ := keyMatch_eq hx
        have hne : List.filter (keyMatch r.bank r.date) xs ≠ [] := by
          rw [List.any_eq_true] at hany
          obtain ⟨y, hy, hky⟩ := hany
          intro hnil
          have hmem : y ∈ List.filter (keyMatch r.bank r.date) xs :=
            List.mem_filter.mpr ⟨hy, by rw [← hxb, ← hxd]; exact hky⟩
          rw [hnil] at hmem
          exact absurd hmem (List.not_mem_nil y)
        rw [if_pos hx, getLast?_cons_of_ne hne]
        exact ih
      · rw [if_neg hx]
        exact ih
    · rw [if_neg hany]
      by_cases hx : keyMatch r.bank r.date x = true
      · obtain ⟨hxb, hxd⟩ := keyMatch_eq hx
        have hnil : List.filter (keyMatch r.bank r.date) xs = [] := by
          rw [List.filter_eq_nil_iff]
          intro y hy
          intro hky
          exact hany (List.any_eq_true.mpr ⟨y, hy, by rw [hxb, hxd]; exact hky⟩)
        rw [if_pos hx, hnil]
        constructor
        · intro hmem
          rcases List.mem_cons.mp hmem with rfl | h2
          · rfl
          · exfalso
            have hrxs : r ∈ xs := keepLast_subset h2
            have : keyMatch x.bank x.date r = true := by
              rw [hxb, hxd]
              exact keyMatch_self r
            exact hany (List.any_eq_true.mpr ⟨r, hrxs, this⟩)
        · intro hsome
          have : x = r := by simpa [List.getLast?] using hsome
          exact this ▸ List.mem_cons_self x (keepLast xs)
      · have hrx : r ≠ x := by
          intro h
          rw [h] at hx
          exact hx (keyMatch_self x)
        rw [if_neg hx]
        rw [List.mem_cons]
        constructor
        · rintro (rfl | h2)
          · exact absurd rfl hrx
          · exact ih.mp h2
        · intro hsome
          exact Or.inr (ih.mpr hsome)

/-- Two rows bear distinct dedup keys. -/
def diffKey (a b : XRow) : Prop := ¬(a.bank = b.bank ∧ a.date = b.date)

theorem diffKey_symm : Symmetric diffKey := by
  intro a b h hc
  exact h ⟨hc.1.symm, hc.2.symm⟩

theorem pairwise_keepLast (l : List XRow) : (keepLast l).Pairwise diffKey := by
  induction l with
  | nil => exact List.Pairwise.nil
  | cons x xs ih =>
    unfold keepLast
    by_cases hany : xs.any (keyMatch x.bank x.date) = true
    · rw [if_pos hany]
      exact ih
    · rw [if_neg hany]
      refine List.Pairwise.cons ?_ ih
      intro y hy hc
      have hyxs : y ∈ xs := keepLast_subset hy
      exact hany (List.any_eq_true.mpr ⟨y, hyxs, by simp [keyMatch, hc.1.symm, hc.2.symm]⟩)

theorem filter_orderedInsert (p : XRow → Bool)
    (hp : ∀ u v, p u = true → p v = true → keyLE u v) (a : XRow) (l : List XRow) :
    (List.orderedInsert keyLE a l).filter p = (a :: l).filter p := by
  induction l with
  | nil => rfl
  | cons b l ih =>
    by_cases hab : keyLE a b
    · rw [List.orderedInsert_of_le keyLE l hab]
    · have hoi : List.orderedInsert keyLE a (b :: l) = b :: List.orderedInsert keyLE a l := by
        simp [List.orderedInsert, hab]
      rw [hoi]
      by_cases hpa : p a = true
      · have hpb : p b = false := by
          cases hpb2 : p b
          · rfl
          · exact absurd (hp a b hpa hpb2) hab
        simp [List.filter_cons, hpa, hpb, ih]
      · have hpa2 : p a = false := by simpa using hpa
        simp [List.filter_cons, hpa2, ih]

/-- Stability of the modelled sort: rows that are mutually tied under the
sort key (in particular, rows sharing one dedup key) keep their relative
order, so any tie-class filter is unchanged by sorting. -/
theorem filter_insertionSort (p : XRow → Bool)
    (hp : ∀ u v, p u = true → p v = true → keyLE u v) (l : List XRow) :
    (List.insertionSort keyLE l).filter p = l.filter p := by
  induction l with
  | nil => rfl
  | cons x l ih =>
    rw [List.insertionSort, filter_orderedInsert p hp x _]
    cases hpx : p x <;> simp [List.filter_cons, hpx, ih]

theorem keyMatch_tied (b d : String) :
    ∀ u v, keyMatch b d u = true → keyMatch b d v = true → keyLE u v := by
  intro u v hu hv
  obtain ⟨hub, hud⟩ := keyMatch_eq hu
  obtain ⟨hvb, hvd⟩ := keyMatch_eq hv
  unfold keyLE keyLEb strLeB
  rw [hud, hvd, hub, hvb]
  simp [strLtB_irrefl]

theorem mem_sortRows {l : List XRow} {r : XRow} : r ∈ sortRows l ↔ r ∈ l := by
  unfold sortRows
  exact List.mem_insertionSort keyLE

theorem lastWithKey_sortRows (b d : String) (e inc : List XRow) :
    lastWithKey b d (e ++ sortRows inc) = lastWithKey b d (e ++ inc) := by
  unfold lastWithKey sortRows
  rw [List.filter_append, List.filter_append, filter_insertionSort _ (keyMatch_tied b d)]

/-- A row is in the merged output iff it is the last row with its
`(bank, date)` key in the concatenation of existing then incoming rows. -/
theorem mem_mergeRecords (existing incoming : List XRow) (r : XRow) :
    r ∈ mergeRecords existing incoming ↔
      lastWithKey r.bank r.date (existing ++ incoming) = some r := by
  unfold mergeRecords
  rw [mem_sortRows, mem_keepLast, lastWithKey_sortRows]

theorem keyLE_diffKey_lt {a b : XRow} (h1 : keyLE a b) (h2 : diffKey a b) : keyLt a b := by
  unfold keyLE keyLEb strLeB at h1
  unfold keyLt
  simp only [Bool.or_eq_true, Bool.and_eq_true, beq_iff_eq, Bool.not_eq_true'] at h1 ⊢
  rcases h1 with hlt | ⟨heq, hle⟩
  · exact Or.inl hlt
  · refine Or.inr ⟨heq, ?_⟩
    cases hab : strLtB a.bank b.bank
    · exact absurd ⟨strLtB_conn hab hle, heq⟩ h2
    · rfl

/-- The merged output is strictly sorted by `(date, bank)`: in particular
its dedup keys are pairwise distinct. -/
theorem pairwise_keyLt_mergeRecords (existing incoming : List XRow) :
    (mergeRecords existing incoming).Pairwise keyLt := by
  have hs : (mergeRecords existing incoming).Pairwise keyLE :=
    List.sorted_insertionSort keyLE _
  have hperm : List.Perm (mergeRecords existing incoming)
      (keepLast (existing ++ sortRows incoming)) :=
    List.perm_insertionSort keyLE _
  have hd : (mergeRecords existing incoming).Pairwise diffKey :=
    (hperm.pairwise_iff fun hab => diffKey_symm hab).mpr (pairwise_keepLast _)
  exact (hs.and hd).imp fun h => keyLE_diffKey_lt h.1 h.2

/-- Sample rows for the ordering example of the spec. -/
def exRowFeb : XRow :=
  { bank := "chase", date := "2025-02", closing_balance := none, total_credits := 0,
    total_debits := 0, statement_period := none, net_cash_flow := 0, month := "February 2025" }

/-- Sample rows for the ordering example of the spec. -/
def exRowJan : XRow :=
  { bank := "chase", date := "2025-01", closing_balance := none, total_credits := 0,
    total_debits := 0, statement_period := none, net_cash_flow := 0, month := "January 2025" }

/-- C1: the merge keeps, for every `(bank, date)` key, exactly the last
record of the concatenation existing-then-incoming (so incoming overwrites
existing and later incoming entries overwrite earlier ones), and the output
is strictly sorted by date ascending then bank ascending; rows dated
2025-02 and 2025-01 come out in the order 2025-01, 2025-02. -/
theorem merge_contract :
    (∀ existing incoming (r : XRow),
        r ∈ mergeRecords existing incoming ↔
          lastWithKey r.bank r.date (existing ++ incoming) = some r) ∧
    (∀ existing incoming, (mergeRecords existing incoming).Pairwise keyLt) ∧
    mergeRecords [] [exRowFeb, exRowJan] = [exRowJan, exRowFeb] :=
  ⟨mem_mergeRecords, pairwise_keyLt_mergeRecords, by decide⟩

theorem keyLt_irrefl (a : XRow) : ¬ keyLt a a := by
  unfold keyLt
  simp [strLtB_irrefl]

theorem keyLt_diffKey {a b : XRow} (h : keyLt a b) : diffKey a b := by
  unfold keyLt at h
  simp only [Bool.or_eq_true, Bool.and_eq_true, beq_iff_eq] at h
  rintro ⟨hb, hd⟩
  rcases h with h1 | ⟨_, h2⟩
  · rw [hd] at h1
    exact absurd h1 (by simp [strLtB_irrefl])
  · rw [hb] at h2
    exact absurd h2 (by simp [strLtB_irrefl])

theorem getLast?_mem {α : Type} {l : List α} {a : α} (h : l.getLast? = some a) : a ∈ l := by
  induction l with
  | nil => simp at h
  | cons x t ih =>
    cases t with
    | nil =>
      have : x = a := by simpa [List.getLast?] using h
      exact this ▸ List.mem_cons_self x []
    | cons y t2 =>
      rw [List.getLast?_cons_cons] at h
      exact List.mem_cons_of_mem x (ih h)

theorem filter_key_eq_single {l : List XRow} (hp : l.Pairwise diffKey) {x : XRow}
    {b d : String} (hx : x ∈ l) (hb : x.bank = b) (hd : x.date = d) :
    l.filter (keyMatch b d) = [x] := by
  induction l with
  | nil => exact absurd hx (List.not_mem_nil x)
  | cons y l ih =>
    rw [List.filter_cons]
    rcases List.mem_cons.mp hx with rfl | hx2
    · rw [if_pos (by simp [keyMatch, hb, hd])]
      have hnil : l.filter (keyMatch b d) = [] := by
        rw [List.filter_eq_nil_iff]
        intro z hz hkz
        obtain ⟨hzb, hzd⟩ := keyMatch_eq hkz
        exact (List.rel_of_pairwise_cons hp hz) ⟨hb.trans hzb.symm, hd.trans hzd.symm⟩
      rw [hnil]
    · have hky : keyMatch b d y = false := by
        cases hk : keyMatch b d y
        · rfl
        · obtain ⟨hyb, hyd⟩ := keyMatch_eq hk
          exact absurd ⟨hyb.trans hb.symm, hyd.trans hd.symm⟩
            (List.rel_of_pairwise_cons hp hx2)
      rw [if_neg (by simp [hky])]
      exact ih hp.of_cons hx2

/-- Re-merging does not change which row is the last holder of any key:
keys present in the incoming batch are still decided by the incoming batch,
and keys only in the merged sheet are carried by their unique row. -/
theorem lastWithKey_merge_append (e inc : List XRow) (b d : String) :
    lastWithKey b d (mergeRecords e inc ++ inc) = lastWithKey b d (e ++ inc) := by
  unfold lastWithKey
  rw [List.filter_append, List.filter_append]
  by_cases hfi : inc.filter (keyMatch b d) = []
  · rw [hfi, List.append_nil, List.append_nil]
    cases hlast : (e.filter (keyMatch b d)).getLast? with
    | none =>
      have hen : e.filter (keyMatch b d) = [] := getLast?_none_iff.mp hlast
      have hm : (mergeRecords e inc).filter (keyMatch b d) = [] := by
        rw [List.filter_eq_nil_iff]
        intro z hz hkz
        obtain ⟨hzb, hzd⟩ := keyMatch_eq hkz
        have hlw := (mem_mergeRecords e inc z).mp hz
        rw [hzb, hzd] at hlw
        unfold lastWithKey at hlw
        rw [List.filter_append, hen, hfi] at hlw
        simp at hlw
      rw [hm]
      rfl
    | some r0 =>
      have hr0mem : r0 ∈ e.filter (keyMatch b d) := getLast?_mem hlast
      obtain ⟨hr0e, hkr0⟩ := List.mem_filter.mp hr0mem
      obtain ⟨hr0b, hr0d⟩ := keyMatch_eq hkr0
      have hlw : lastWithKey b d (e ++ inc) = some r0 := by
        unfold lastWithKey
        rw [List.filter_append, hfi, List.append_nil]
        exact hlast
      have hr0merge : r0 ∈ mergeRecords e inc := by
        rw [mem_mergeRecords, hr0b, hr0d]
        exact hlw
      have hpair : (mergeRecords e inc).Pairwise diffKey :=
        (pairwise_keyLt_mergeRecords e inc).imp fun h => keyLt_diffKey h
      rw [filter_key_eq_single hpair hr0merge hr0b hr0d]
      rfl
  · rw [getLast?_append_of_ne hfi, getLast?_append_of_ne hfi]

/-- Two lists that are strictly sorted by the same total strict order and
have the same members are equal. -/
theorem eq_of_sorted_strict {xs ys : List XRow} (hx : xs.Pairwise keyLt)
    (hy : ys.Pairwise keyLt) (hmem : ∀ r, r ∈ xs ↔ r ∈ ys) : xs = ys := by
  induction xs generalizing ys with
  | nil =>
    cases ys with
    | nil => rfl
    | cons y ys2 => exact absurd ((hmem y).mpr (List.mem_cons_self y ys2)) (List.not_mem_nil y)
  | cons x xs2 ih =>
    cases ys with
    | nil => exact absurd ((hmem x).mp (List.mem_cons_self x xs2)) (List.not_mem_nil x)
    | cons y ys2 =>
      have hxy : x = y := by
        by_contra hne
        have hx_in : x ∈ y :: ys2 := (hmem x).mp (List.mem_cons_self x xs2)
        have hy_in : y ∈ x :: xs2 := (hmem y).mpr (List.mem_cons_self y ys2)
        have hx2 : x ∈ ys2 := by
          rcases List.mem_cons.mp hx_in with h | h
          · exact absurd h hne
          · exact h
        have hy2 : y ∈ xs2 := by
          rcases List.mem_cons.mp hy_in with h | h
          · exact absurd h.symm hne
          · exact h
        have l1 : keyLt x y := List.rel_of_pairwise_cons hx hy2
        have l2 : keyLt y x := List.rel_of_pairwise_cons hy hx2
        exact hne (antisymm l1 l2)
      subst hxy
      have hmem2 : ∀ r, r ∈ xs2 ↔ r ∈ ys2 := by
        intro r
        constructor
        · intro hr
          have h1 : keyLt x r := List.rel_of_pairwise_cons hx hr
          rcases List.mem_cons.mp ((hmem r).mp (List.mem_cons_of_mem x hr)) with rfl | h
          · exact absurd h1 (keyLt_irrefl r)
          · exact h
        · intro hr
          have h1 : keyLt x r := List.rel_of_pairwise_cons hy hr
          rcases List.mem_cons.mp ((hmem r).mpr (List.mem_cons_of_mem x hr)) with rfl | h
          · exact absurd h1 (keyLt_irrefl r)
          · exact h
      rw [ih hx.of_cons hy.of_cons hmem2]

/-- C9: merging a dataset with an incoming batch and then merging the result
again with the identical batch returns the same dataset: same rows, same
order, hence same size. -/
theorem merge_idempotent (existing incoming : List XRow) :
    mergeRecords (mergeRecords existing incoming) incoming =
      mergeRecords existing incoming := by
  apply eq_of_sorted_strict (pairwise_keyLt_mergeRecords _ _)
    (pairwise_keyLt_mergeRecords _ _)
  intro r
  rw [mem_mergeRecords, mem_mergeRecords, lastWithKey_merge_append]

/-! `create_monthly_report` (lines 490-547): read the sheet rows, filter to
the current month, early-return when nothing matches, then write the
per-bank rows in their filtered order followed by a `TOTAL` row whose cells
are `=SUM(...)` formulas over each numeric column; the formulas are
modelled by their arithmetic values, with blank (null) closing balances
contributing 0 as in the spreadsheet. -/

/-- One row of the monthly report sheet. -/
structure ReportRow where
  bank : String
  closing_balance : Option ℚ
  total_credits : ℚ
  total_debits : ℚ
  net_cash_flow : ℚ
deriving DecidableEq

/-- The per-bank cells written for one sheet row. -/
def toReportRow (r : XRow) : ReportRow :=
  { bank := r.bank, closing_balance := r.closing_balance,
    total_credits := r.total_credits, total_debits := r.total_debits,
    net_cash_flow := r.net_cash_flow }

/-- The synthesized totals row: bank label `TOTAL`, each numeric field the
column sum over the filtered rows. -/
def totalsRow (rows : List XRow) : ReportRow :=
  { bank := "TOTAL",
    closing_balance := some ((rows.map (fun r => r.closing_balance.getD 0)).sum),
    total_credits := (rows.map (fun r => r.total_credits)).sum,
    total_debits := (rows.map (fun r => r.total_debits)).sum,
    net_cash_flow := (rows.map (fun r => r.net_cash_flow)).sum }

/-- `create_monthly_report`: `none` models the early `return` when no row
matches the current month. -/
def create_monthly_report (rows : List XRow) (current_month : String) :
    Option (List ReportRow) :=
  let month_data := rows.filter (fun r => r.date == current_month)
  if month_data.isEmpty then none
  else some (month_data.map toReportRow ++ [totalsRow month_data])

/-- Concrete dataset for the report example: two April rows and one March
row. -/
def repRowA : XRow :=
  { bank := "chase", date := "2025-04", closing_balance := none,
    total_credits := 100, total_debits := 20, statement_period := none,
    net_cash_flow := 80, month := "April 2025" }

/-- Second April row of the report example. -/
def repRowB : XRow :=
  { bank := "citi", date := "2025-04", closing_balance := none,
    total_credits := 50, total_debits := 10, statement_period := none,
    net_cash_flow := 40, month := "April 2025" }

/-- Off-month row of the report example. -/
def repRowC : XRow :=
  { bank := "chase", date := "2025-03", closing_balance := none,
    total_credits := 1, total_debits := 2, statement_period := none,
    net_cash_flow := -1, month := "March 2025" }

/-- C8: with at least one row for the period, the report is the filtered
per-bank rows in filtered order followed by a `TOTAL` row whose numeric
fields are the column sums; when every row satisfies
`net = credits - debits`, the totals row does too; concretely two rows for
2025-04 with credits 100/50 and debits 20/10 give totals
`150 / 30 / 120`. -/
theorem monthly_report_contract :
    (∀ rows m, rows.filter (fun r => r.date == m) ≠ [] →
      create_monthly_report rows m =
        some ((rows.filter (fun r => r.date == m)).map toReportRow ++
          [totalsRow (rows.filter (fun r => r.date == m))])) ∧
    (∀ rows : List XRow,
      (∀ r ∈ rows, r.net_cash_flow = r.total_credits - r.total_debits) →
      (totalsRow rows).net_cash_flow =
        (totalsRow rows).total_credits - (totalsRow rows).total_debits) ∧
    create_monthly_report [repRowC, repRowA, repRowB] "2025-04" =
      some [toReportRow repRowA, toReportRow repRowB,
        { bank := "TOTAL", closing_balance := some 0, total_credits := 150,
          total_debits := 30, net_cash_flow := 120 }] := by
  refine ⟨?_, ?_, ?_⟩
  · intro rows m hne
    unfold create_monthly_report
    rw [if_neg (by simpa [List.isEmpty_iff] using hne)]
  · intro rows hnet
    unfold totalsRow
    simp only
    induction rows with
    | nil => simp
    | cons r rows ih =>
      simp only [List.map_cons, List.sum_cons]
      rw [hnet r (List.mem_cons_self r rows),
        ih fun z hz => hnet z (List.mem_cons_of_mem r hz)]
      ring
  · simp [create_monthly_report, repRowA, repRowB, repRowC, toReportRow, totalsRow]
    norm_num

/-- Witness for `monthly_report_contract` at the concrete dataset. -/
theorem monthly_report_contract_witness :
    ([repRowC, repRowA, repRowB].filter (fun r => r.date == "2025-04") ≠ [] ∧
      create_monthly_report [repRowC, repRowA, repRowB] "2025-04" =
        some (([repRowC, repRowA, repRowB].filter
            (fun r => r.date == "2025-04")).map toReportRow ++
          [totalsRow ([repRowC, repRowA, repRowB].filter
            (fun r => r.date == "2025-04"))])) ∧
    ((∀ r ∈ [exRowFeb], r.net_cash_flow = r.total_credits - r.total_debits) ∧
      (totalsRow [exRowFeb]).net_cash_flow =
        (totalsRow [exRowFeb]).total_credits - (totalsRow [exRowFeb]).total_debits) :=
  ⟨⟨by decide, monthly_report_contract.1 [repRowC, repRowA, repRowB] "2025-04" (by decide)⟩,
   ⟨by simp [exRowFeb], monthly_report_contract.2.1 [exRowFeb] (by simp [exRowFeb])⟩⟩

end BankProc
